import Mathlib

/-!
# Verification of `zipline/utils/calendars/exchange_calendar.py`

A shallow embedding of the exchange-calendar module: instants are modelled as
`Int` nanoseconds since the Unix epoch (pandas `Timestamp` values are exactly
that), calendar days as the instant of their UTC midnight, and a timezone as a
fixed UTC offset in nanoseconds (the claims under verification do not hinge on
daylight-saving transitions).  Fallible construction steps (Python `raise`)
are modelled with `Except`, and the global registry dictionary by explicit
state passing.
-/

namespace Zipline

/-! ## Definitions -/

/-- Source constant `NANOS_IN_MINUTE = 60000000000`. -/
def NANOS_IN_MINUTE : Int := 60000000000

/-- Nanoseconds in a day; used to model pandas `Timestamp.normalize()`. -/
def NANOS_IN_DAY : Int := 86400000000000

/-- pandas `.normalize()` on a UTC timestamp: floor the instant to the start
of its UTC day.  `Int` division is Euclidean, hence a genuine floor for the
positive divisor `NANOS_IN_DAY`. -/
def normalize (t : Int) : Int := NANOS_IN_DAY * (t / NANOS_IN_DAY)

/-- `days_at_time` applied to a single day (the body of the `map` below):
strip the time-of-day from `d`, reinterpret the date in the exchange timezone
(a fixed UTC offset `tzOffset`, local = UTC + `tzOffset`), add `dayOffset`
whole days, set the wall-clock time to `t` (nanoseconds after local
midnight), and convert back to UTC. -/
def day_at_time (d t tzOffset dayOffset : Int) : Int :=
  normalize d + dayOffset * NANOS_IN_DAY + t - tzOffset

/-- Source `days_at_time(days, t, tz, day_offset)`: shift an index of days to
time `t` interpreted in the exchange timezone, producing UTC instants. -/
def days_at_time (days : List Int) (t tzOffset dayOffset : Int) : List Int :=
  days.map fun d => day_at_time d t tzOffset dayOffset

/-- One key of pandas `Index.get_indexer`: position of `k` in the index, or
`none` where the source gets `-1` (no corresponding entry). -/
def get_loc : List Int → Int → Option Nat
  | [], _ => none
  | d :: ds, k => if d = k then some 0 else (get_loc ds k).map (· + 1)

/-- The vectorised scatter write `opens_or_closes.values[indexer] = values`:
each update `(some i, v)` assigns position `i` := `v`, later writes winning,
exactly as repeated numpy fancy-indexed assignment does. -/
def scatter (vals : List Int) (updates : List (Option Nat × Int)) : List Int :=
  updates.foldl (fun acc u =>
    match u.1 with
    | some i => acc.set i u.2
    | none => acc) vals

/-- The two `ValueError`s that `_overwrite_special_dates` can raise.  (In the
source the misaligned-lengths branch actually crashes while formatting its
message — `% len_m, len_oc` only feeds `len_m` to the format string — but
either way an exception carrying no calendar escapes; we record the intended
payload.) -/
inductive OverlayError where
  | misalignedLengths (lenMidnights lenOpensOrCloses : Nat)
  | specialDatesNotTradingDays (badDates : List Int)
deriving DecidableEq, Repr

/-- Source `_overwrite_special_dates(midnight_utcs, opens_or_closes,
special_opens_or_closes)`: overwrite entries of `opens_or_closes` with the
special instants, aligned by the normalized date's position in
`midnight_utcs`.  Python mutates `opens_or_closes` in place and returns
`None`; we return the overwritten sequence (or the raised error). -/
def _overwrite_special_dates (midnight_utcs opens_or_closes special_opens_or_closes :
    List Int) : Except OverlayError (List Int) :=
  -- Short circuit when nothing to apply.
  -- `special_opens_or_closes.map fun s => get_loc midnight_utcs (normalize s)`
  -- is the source's local `indexer` (written out at each use site below):
  -- the array indices corresponding to each special date (`-1` ↦ `none`).
  if special_opens_or_closes.length = 0 then .ok opens_or_closes
  else if midnight_utcs.length ≠ opens_or_closes.length then
    .error (.misalignedLengths midnight_utcs.length opens_or_closes.length)
  else if none ∈ special_opens_or_closes.map fun s => get_loc midnight_utcs (normalize s) then
    .error (.specialDatesNotTradingDays
      (((special_opens_or_closes.zip
          (special_opens_or_closes.map fun s => get_loc midnight_utcs (normalize s))).filter
            fun p => p.2 = none).map Prod.fst))
  else
    .ok (scatter opens_or_closes
      ((special_opens_or_closes.map fun s => get_loc midnight_utcs (normalize s)).zip
        special_opens_or_closes))

/-- The static per-exchange configuration consumed by
`ExchangeCalendar.__init__`: local open/close wall-clock times (nanoseconds
after local midnight), day offsets, and the exchange timezone as a fixed UTC
offset in nanoseconds. -/
structure ExchangeConfig where
  open_time : Int
  close_time : Int
  open_offset : Int
  close_offset : Int
  tzOffset : Int
deriving DecidableEq, Repr

/-- The session table built by `ExchangeCalendar.__init__`: the row index
(`_all_days`, UTC midnights of the business days) and the two columns of the
`schedule` DataFrame. -/
structure Schedule where
  all_days : List Int
  market_open : List Int
  market_close : List Int
deriving DecidableEq, Repr

/-- The body of `ExchangeCalendar.__init__` from the nominal open/close
computation onward: `_all_days` (produced upstream by
`date_range(start, end, freq=CustomBusinessDay(...))`, external pandas
machinery) and the resolved special open/close instants are taken as inputs;
the nominal opens/closes are `days_at_time` of the days, the special instants
are overwritten on top, and the resulting frame is published — or an
overlay error aborts construction with no schedule produced. -/
def mkSchedule (cfg : ExchangeConfig) (all_days special_opens special_closes : List Int) :
    Except OverlayError Schedule := do
  -- self._opens / self._closes: nominal instants, overwritten in place below
  let opens ← _overwrite_special_dates all_days
    (days_at_time all_days cfg.open_time cfg.tzOffset cfg.open_offset) special_opens
  let closes ← _overwrite_special_dates all_days
    (days_at_time all_days cfg.close_time cfg.tzOffset cfg.close_offset) special_closes
  return { all_days := all_days, market_open := opens, market_close := closes }

/-- The last special instant whose normalized date equals the business day
`d` (the scatter write makes the last matching write win), if any. -/
def specialAt (specials : List Int) (d : Int) : Option Int :=
  (specials.filter fun s => normalize s = d).getLast?

/-- The nominal (pre-overlay) market-open instant of business day `d`. -/
def nominal_open (cfg : ExchangeConfig) (d : Int) : Int :=
  day_at_time d cfg.open_time cfg.tzOffset cfg.open_offset

/-- The nominal (pre-overlay) market-close instant of business day `d`. -/
def nominal_close (cfg : ExchangeConfig) (d : Int) : Int :=
  day_at_time d cfg.close_time cfg.tzOffset cfg.close_offset

/-- The open instant day `d` ends up with after the overlay: the (last)
special open aligned to `d` if there is one, otherwise the nominal open. -/
def effective_open (cfg : ExchangeConfig) (special_opens : List Int) (d : Int) : Int :=
  (specialAt special_opens d).getD (nominal_open cfg d)

/-- The close instant day `d` ends up with after the overlay. -/
def effective_close (cfg : ExchangeConfig) (special_closes : List Int) (d : Int) : Int :=
  (specialAt special_closes d).getD (nominal_close cfg d)

/-- Element count of `np.arange(start, stop, step)` for a positive `step`:
`ceil((stop - start) / step)`, clamped at zero. -/
def arange_len (start stop step : Int) : Nat := (((stop - start) + step - 1) / step).toNat

/-- `n` values `s, s + st, s + 2*st, ...` (the contents of a `np.arange`). -/
def arangeAux : Nat → Int → Int → List Int
  | 0, _, _ => []
  | n + 1, s, st => s :: arangeAux n (s + st) st

/-- `np.arange(start, stop, step)` for a positive `step`. -/
def arange (start stop step : Int) : List Int :=
  arangeAux (arange_len start stop step) start step

/-- `daily_sizes = (closes_in_ns - opens_in_ns) / NANOS_IN_MINUTE + 1`
elementwise ("+ 1 because we want 390 days per standard day, not 389").  The
source divides in floating point; it agrees with this integer division
whenever each delta is a whole number of minutes. -/
def daily_sizes (opens closes : List Int) : List Int :=
  (opens.zip closes).map fun p => (p.2 - p.1) / NANOS_IN_MINUTE + 1

/-- `all_trading_minutes` on the post-overlay `self._opens`/`self._closes`
columns: one `np.arange(open, close + NANOS_IN_MINUTE, NANOS_IN_MINUTE)`
block per session, laid out in session order (the source fills one
preallocated `num_minutes` buffer block by block, which is exactly this
concatenation when each block's length equals its `daily_sizes` entry). -/
def all_trading_minutes (opens closes : List Int) : List Int :=
  (opens.zip closes).flatMap fun p =>
    arange p.1 (p.2 + NANOS_IN_MINUTE) NANOS_IN_MINUTE

/-- Sorted insert with duplicate elimination.  Folding it over every element
of every input sequence models `DatetimeIndex([], tz=UTC).union_many(...)`,
whose result is the sorted de-duplicated union of its inputs. -/
def insertSorted (x : Int) : List Int → List Int
  | [] => [x]
  | y :: ys =>
    if x < y then x :: y :: ys
    else if x = y then y :: ys
    else y :: insertSorted x ys

/-- The sorted de-duplicated union of a collection of instant sequences. -/
def union_many (ls : List (List Int)) : List Int :=
  ls.foldl (fun acc l => l.foldl (fun a x => insertSorted x a) acc) []

/-- `holidays_at_time(calendar, start, end, time, tz)`: a holiday rule is
modelled extensionally by the full list of dates it generates;
`calendar.holidays(start, end)` restricts it to the query range, and
`days_at_time` shifts those dates to the rule's local time. -/
def holidays_at_time (cal : List Int) (start_date end_date t tzOffset : Int) : List Int :=
  days_at_time (cal.filter fun d => start_date ≤ d ∧ d ≤ end_date) t tzOffset 0

/-- `ExchangeCalendar._special_dates(calendars, ad_hoc_dates, start_date,
end_date)`: union the instant sequences produced from each
`(time, calendar)` pair and each `(time, [dates])` pair, then keep only
instants in `[start_date, end_date]` (both comparisons inclusive). -/
def _special_dates (calendars ad_hoc_dates : List (Int × List Int))
    (start_date end_date tzOffset : Int) : List Int :=
  (union_many
    ((calendars.map fun p => holidays_at_time p.2 start_date end_date p.1 tzOffset) ++
      (ad_hoc_dates.map fun p => days_at_time p.2 p.1 tzOffset 0))).filter
    fun t => start_date ≤ t ∧ t ≤ end_date

/-- Modelled from the spec: the first element of the ascending business-day
sequence strictly greater than `d` — §4.4's "smallest business day strictly
greater than `d`" when the sequence is sorted ascending (§3). -/
def smallestAfter : List Int → Int → Option Int
  | [], _ => none
  | x :: xs, d => if d < x then some x else smallestAfter xs d

/-- Modelled from the spec: the last element of the ascending business-day
sequence strictly less than `d` — §4.4's "largest business day strictly less
than `d`". -/
def largestBefore : List Int → Int → Option Int
  | [], _ => none
  | x :: xs, d => if x < d then some ((largestBefore xs d).getD x) else none

/-- Modelled from the spec: `next_trading_day(d)` (missing helper
`next_scheduled_day`) — the smallest business day strictly greater than `d`,
failing (`none`, the out-of-range error) when `d ≥ last_trading_day`. -/
def next_trading_day (days : List Int) (last_trading_day d : Int) : Option Int :=
  if last_trading_day ≤ d then none else smallestAfter days d

/-- Modelled from the spec: `previous_trading_day(d)` (missing helper
`previous_scheduled_day`) — the largest business day strictly less than `d`,
failing when `d ≤ first_trading_day`. -/
def previous_trading_day (days : List Int) (first_trading_day d : Int) : Option Int :=
  if d ≤ first_trading_day then none else largestBefore days d

/-- An `ExchangeCalendar` instance as the registry sees it: its `name`
property plus the construction arguments (which also let two distinct
instances of the same exchange be told apart). -/
structure ExchangeCalendar where
  name : String
  start_arg : Option Int
  end_arg : Option Int
deriving DecidableEq, Repr

/-- The module-global `_static_calendars` dict, modelled as an association
list with lookup on the name key. -/
abbrev CalendarRegistry := List (String × ExchangeCalendar)

/-- `zipline.errors.InvalidCalendarName` / `CalendarNameCollision`, plus the
`KeyError` a failed dict subscript would raise. -/
inductive CalendarError where
  | invalidCalendarName (name : String)
  | calendarNameCollision (name : String)
  | keyError (name : String)
deriving DecidableEq, Repr

/-- `deregister_calendar(cal_name)`: drop the entry if present (the
`try: pop / except KeyError: pass` makes absence a no-op). -/
def deregister_calendar (cal_name : String) (reg : CalendarRegistry) : CalendarRegistry :=
  reg.filter fun p => p.1 ≠ cal_name

/-- `clear_calendars()`: deregister all currently registered calendars. -/
def clear_calendars : CalendarRegistry := []

/-- `register_calendar(calendar, force)`: returns the post-call registry
state paired with the raised error, if any.  The Python raise happens before
the dict write, so the state accompanying an error is the pre-insertion
state. -/
def register_calendar (calendar : ExchangeCalendar) (force : Bool)
    (reg : CalendarRegistry) : CalendarRegistry × Option CalendarError :=
  -- If we are forcing the registration, remove an existing calendar with
  -- the same name.
  let reg1 := if force then deregister_calendar calendar.name reg else reg
  -- Check if we are already holding a calendar with the same name
  if (reg1.lookup calendar.name).isSome then
    (reg1, some (.calendarNameCollision calendar.name))
  else
    ((calendar.name, calendar) :: reg1, none)

/-- The names `get_calendar` knows how to construct lazily. -/
def lazy_calendar_names : List String := ["NYSE", "CME", "BMF", "LSE", "TSX"]

/-- Modelled from the spec: the per-exchange constructors
(`NYSEExchangeCalendar(**kwargs)`, …) live in the missing modules
`exchange_calendar_nyse.py` etc.; §4.6 specifies that the constructor for a
known name is invoked with the optional start/end overrides and yields a
fresh instance carrying that exchange's name. -/
def constructCalendar (name : String) (start_arg end_arg : Option Int) : ExchangeCalendar :=
  { name := name, start_arg := start_arg, end_arg := end_arg }

/-- `get_calendar(name, start, end)`: return the already-registered instance
if present; otherwise construct and register the lazy calendar for a known
name and return the freshly registered entry; unknown names raise
`InvalidCalendarName`.  Returns the post-call registry state and result. -/
def get_calendar (name : String) (start_arg end_arg : Option Int)
    (reg : CalendarRegistry) : CalendarRegistry × Except CalendarError ExchangeCalendar :=
  match reg.lookup name with
  | some cal => (reg, .ok cal)
  | none =>
    if name ∈ lazy_calendar_names then
      match register_calendar (constructCalendar name start_arg end_arg) false reg with
      | (reg1, none) =>
        match reg1.lookup name with
        | some cal => (reg1, .ok cal)
        | none => (reg1, .error (.keyError name))
      | (reg1, some e) => (reg1, .error e)
    else
      (reg, .error (.invalidCalendarName name))

/-! ## Theorems -/

/-! ### Lemmas about `get_loc` (pandas `get_indexer` on one key) -/

theorem get_loc_eq_none_iff (l : List Int) (k : Int) : get_loc l k = none ↔ k ∉ l := by
  induction l with
  | nil => simp [get_loc]
  | cons d ds ih =>
    by_cases hd : d = k
    · simp [get_loc, hd]
    · simp [get_loc, hd, Option.map_eq_none', ih, Ne.symm hd]

theorem getElem?_of_get_loc {l : List Int} {k : Int} {i : Nat}
    (h : get_loc l k = some i) : l[i]? = some k := by
  induction l generalizing i with
  | nil => simp [get_loc] at h
  | cons d ds ih =>
    by_cases hd : d = k
    · simp [get_loc, hd] at h
      simp [← h, hd]
    · simp only [get_loc, if_neg hd, Option.map_eq_some'] at h
      obtain ⟨j, hj, rfl⟩ := h
      simpa using ih hj

theorem get_loc_of_getElem? {l : List Int} (hnd : l.Nodup) {k : Int} {i : Nat}
    (h : l[i]? = some k) : get_loc l k = some i := by
  induction l generalizing i with
  | nil => simp at h
  | cons d ds ih =>
    rcases List.nodup_cons.mp hnd with ⟨hd, hds⟩
    cases i with
    | zero =>
      simp at h
      simp [get_loc, h]
    | succ j =>
      simp at h
      have hk : k ∈ ds := List.getElem?_mem h
      have hne : d ≠ k := fun hdk => hd (hdk ▸ hk)
      simp [get_loc, hne, ih hds h]

/-! ### Lemmas about `scatter` (the fancy-indexed assignment) -/

theorem scatter_nil (vals : List Int) : scatter vals [] = vals := rfl

theorem scatter_cons (vals : List Int) (u : Option Nat × Int) (us : List (Option Nat × Int)) :
    scatter vals (u :: us) =
      scatter (match u.1 with | some i => vals.set i u.2 | none => vals) us := rfl

theorem scatter_length (vals : List Int) (updates : List (Option Nat × Int)) :
    (scatter vals updates).length = vals.length := by
  induction updates generalizing vals with
  | nil => rfl
  | cons u us ih =>
    rw [scatter_cons]
    rcases u with ⟨j | j, v⟩ <;> simp [ih]

theorem scatter_getElem?_of_notMem (vals : List Int) (updates : List (Option Nat × Int))
    (i : Nat) (h : ∀ u ∈ updates, u.1 ≠ some i) :
    (scatter vals updates)[i]? = vals[i]? := by
  induction updates generalizing vals with
  | nil => rfl
  | cons u us ih =>
    rw [scatter_cons]
    have hu : u.1 ≠ some i := h u (List.mem_cons_self u us)
    have hus : ∀ v ∈ us, v.1 ≠ some i := fun v hv => h v (List.mem_cons_of_mem u hv)
    rcases u with ⟨_ | j, v⟩
    · exact ih _ hus
    · rw [ih _ hus]
      exact List.getElem?_set_ne (fun hji => hu (by simp_all))

theorem scatter_getElem?_of_getLast (vals : List Int) (updates : List (Option Nat × Int))
    (i : Nat) (hi : i < vals.length) (u : Option Nat × Int)
    (h : (updates.filter fun u => u.1 = some i).getLast? = some u) :
    (scatter vals updates)[i]? = some u.2 := by
  induction updates generalizing vals with
  | nil => simp at h
  | cons u' us ih =>
    rw [scatter_cons]
    by_cases hu' : u'.1 = some i
    · rw [List.filter_cons_of_pos (by simpa using hu')] at h
      rcases hfus : us.filter fun u => u.1 = some i with _ | ⟨q, rest⟩
      · rw [hfus, List.getLast?_singleton] at h
        obtain rfl : u' = u := Option.some.inj h
        have hus : ∀ v ∈ us, v.1 ≠ some i := by
          intro v hv hvi
          have hmem : v ∈ us.filter fun w => w.1 = some i :=
            List.mem_filter.mpr ⟨hv, by simpa using hvi⟩
          simp [hfus] at hmem
        rw [scatter_getElem?_of_notMem _ _ _ hus, hu']
        exact List.getElem?_set_self hi
      · rw [hfus, List.getLast?_cons_cons, ← hfus] at h
        rcases u' with ⟨_ | j, v⟩
        · exact ih _ (by simpa using hi) h
        · exact ih _ (by simpa using hi) h
    · rw [List.filter_cons_of_neg (by simpa using hu')] at h
      rcases u' with ⟨_ | j, v⟩
      · exact ih _ hi h
      · exact ih _ (by simpa using hi) h

/-! ### Characterising `_overwrite_special_dates` -/

theorem overwrite_eq_ok (midnights vals specials : List Int)
    (hlen : midnights.length = vals.length)
    (halign : ∀ s ∈ specials, normalize s ∈ midnights) :
    _overwrite_special_dates midnights vals specials =
      .ok (scatter vals
        ((specials.map fun s => get_loc midnights (normalize s)).zip specials)) := by
  rcases specials with _ | ⟨s0, srest⟩
  · simp [_overwrite_special_dates, scatter_nil]
  · rw [_overwrite_special_dates]
    rw [if_neg (by simp), if_neg (by simp [hlen])]
    rw [if_neg]
    intro hmem
    rcases List.mem_map.mp hmem with ⟨s, hs, hnone⟩
    exact ((get_loc_eq_none_iff _ _).mp hnone) (halign s hs)

theorem align_of_overwrite_ok (midnights vals specials vals' : List Int)
    (hok : _overwrite_special_dates midnights vals specials = .ok vals') :
    ∀ s ∈ specials, normalize s ∈ midnights := by
  intro s hs
  by_contra hnotin
  have hne : ¬ specials.length = 0 := by
    intro h0
    rw [List.length_eq_zero] at h0
    subst h0
    simp at hs
  rw [_overwrite_special_dates, if_neg hne] at hok
  by_cases hlen : midnights.length ≠ vals.length
  · rw [if_pos hlen] at hok
    exact Except.noConfusion hok
  · rw [if_neg hlen] at hok
    have hmem : none ∈ specials.map fun s => get_loc midnights (normalize s) :=
      List.mem_map.mpr ⟨s, hs, (get_loc_eq_none_iff _ _).mpr hnotin⟩
    rw [if_pos hmem] at hok
    exact Except.noConfusion hok

theorem length_of_overwrite_ok (midnights vals specials vals' : List Int)
    (hlen : midnights.length = vals.length)
    (hok : _overwrite_special_dates midnights vals specials = .ok vals') :
    vals'.length = vals.length := by
  have halign := align_of_overwrite_ok _ _ _ _ hok
  rw [overwrite_eq_ok _ _ _ hlen halign] at hok
  obtain rfl := Except.ok.inj hok
  exact scatter_length _ _

/-- Positions whose business day matches no special instant keep their value. -/
theorem overwrite_untouched (midnights vals specials vals' : List Int)
    (hlen : midnights.length = vals.length)
    (hok : _overwrite_special_dates midnights vals specials = .ok vals')
    (i : Nat) (d : Int) (hd : midnights[i]? = some d)
    (hnot : d ∉ specials.map normalize) :
    vals'[i]? = vals[i]? := by
  have halign := align_of_overwrite_ok _ _ _ _ hok
  rw [overwrite_eq_ok _ _ _ hlen halign] at hok
  obtain rfl := Except.ok.inj hok
  apply scatter_getElem?_of_notMem
  intro u hu hui
  have h1 : u.1 ∈ specials.map fun s => get_loc midnights (normalize s) :=
    (List.of_mem_zip hu).1
  rcases List.mem_map.mp h1 with ⟨s, hs, hfs⟩
  rw [hui] at hfs
  have h2 : midnights[i]? = some (normalize s) := getElem?_of_get_loc hfs
  rw [hd] at h2
  exact hnot (List.mem_map.mpr ⟨s, hs, (Option.some.inj h2).symm⟩)

/-- A position whose business day matches some special instant receives the
last matching special instant. -/
theorem overwrite_touched (midnights vals specials vals' : List Int)
    (hnd : midnights.Nodup) (hlen : midnights.length = vals.length)
    (hok : _overwrite_special_dates midnights vals specials = .ok vals')
    (i : Nat) (d : Int) (hd : midnights[i]? = some d)
    (v : Int) (hv : specialAt specials d = some v) :
    vals'[i]? = some v := by
  have halign := align_of_overwrite_ok _ _ _ _ hok
  rw [overwrite_eq_ok _ _ _ hlen halign] at hok
  obtain rfl := Except.ok.inj hok
  have hi : i < vals.length := by
    rw [← hlen]
    exact (List.getElem?_eq_some.mp hd).1
  have hiff : ∀ s ∈ specials, (get_loc midnights (normalize s) = some i ↔ normalize s = d) := by
    intro s _
    constructor
    · intro hfs
      have h1 := getElem?_of_get_loc hfs
      rw [hd] at h1
      exact (Option.some.inj h1).symm
    · intro hnorm
      rw [hnorm]
      exact get_loc_of_getElem? hnd hd
  have hzip := List.zip_map' (fun s => get_loc midnights (normalize s)) id specials
  rw [List.map_id] at hzip
  rw [hzip]
  apply scatter_getElem?_of_getLast vals _ i hi ((some i : Option Nat), v)
  rw [List.filter_map]
  have hcongr : List.filter
        ((fun u : Option Nat × Int => decide (u.1 = some i)) ∘
          fun a => ((fun s => get_loc midnights (normalize s)) a, id a)) specials
      = List.filter (fun s => decide (normalize s = d)) specials := by
    apply List.filter_congr
    intro s hs
    simp only [Function.comp_apply]
    exact decide_eq_decide.mpr (hiff s hs)
  rw [hcongr, List.getLast?_map]
  have hvmem : v ∈ specials.filter fun s => decide (normalize s = d) :=
    List.mem_of_mem_getLast? hv
  have hnv : normalize v = d := by simpa using (List.mem_filter.mp hvmem).2
  have hfv : get_loc midnights (normalize v) = some i := by
    rw [hnv]
    exact get_loc_of_getElem? hnd hd
  rw [show (specials.filter fun s => decide (normalize s = d)).getLast? = some v from hv]
  simp [hfv]

/-! ### Characterising `mkSchedule` -/

theorem mkSchedule_ok_elim (cfg : ExchangeConfig) (days so sc : List Int) (sch : Schedule)
    (hok : mkSchedule cfg days so sc = .ok sch) :
    ∃ opens' closes',
      _overwrite_special_dates days
        (days_at_time days cfg.open_time cfg.tzOffset cfg.open_offset) so = .ok opens' ∧
      _overwrite_special_dates days
        (days_at_time days cfg.close_time cfg.tzOffset cfg.close_offset) sc = .ok closes' ∧
      sch = ⟨days, opens', closes'⟩ := by
  unfold mkSchedule at hok
  rcases h1 : _overwrite_special_dates days
      (days_at_time days cfg.open_time cfg.tzOffset cfg.open_offset) so with e | opens'
  · rw [h1] at hok
    exact Except.noConfusion hok
  · rw [h1] at hok
    rcases h2 : _overwrite_special_dates days
        (days_at_time days cfg.close_time cfg.tzOffset cfg.close_offset) sc with e | closes'
    · rw [h2] at hok
      exact Except.noConfusion hok
    · rw [h2] at hok
      exact ⟨opens', closes', rfl, rfl, (Except.ok.inj hok).symm⟩

/-- Full positional characterisation of a successfully built session table:
row `i` holds exactly the effective open/close of the `i`-th business day. -/
theorem mkSchedule_ok_spec (cfg : ExchangeConfig) (days so sc : List Int) (sch : Schedule)
    (hok : mkSchedule cfg days so sc = .ok sch) (hnd : days.Nodup) :
    sch.all_days = days ∧
    sch.market_open.length = days.length ∧
    sch.market_close.length = days.length ∧
    ∀ i (hi : i < days.length),
      sch.market_open[i]? = some (effective_open cfg so days[i]) ∧
      sch.market_close[i]? = some (effective_close cfg sc days[i]) := by
  obtain ⟨opens', closes', ho, hc, rfl⟩ := mkSchedule_ok_elim cfg days so sc sch hok
  have hlo : days.length =
      (days_at_time days cfg.open_time cfg.tzOffset cfg.open_offset).length := by
    simp [days_at_time]
  have hlc : days.length =
      (days_at_time days cfg.close_time cfg.tzOffset cfg.close_offset).length := by
    simp [days_at_time]
  refine ⟨rfl, ?_, ?_, ?_⟩
  · rw [length_of_overwrite_ok _ _ _ _ hlo ho, ← hlo]
  · rw [length_of_overwrite_ok _ _ _ _ hlc hc, ← hlc]
  · intro i hi
    have hd : days[i]? = some days[i] := List.getElem?_eq_getElem hi
    constructor
    · rcases hsp : specialAt so days[i] with _ | v
      · have hnot : days[i] ∉ so.map normalize := by
          intro hmem
          rcases List.mem_map.mp hmem with ⟨s, hs, hns⟩
          have hmem2 : s ∈ so.filter fun s => normalize s = days[i] :=
            List.mem_filter.mpr ⟨hs, by simpa using hns⟩
          have hfil : (so.filter fun s => normalize s = days[i]) = [] :=
            List.getLast?_eq_none_iff.mp hsp
          rw [hfil] at hmem2
          simp at hmem2
        rw [overwrite_untouched _ _ _ _ hlo ho i days[i] hd hnot]
        simp [effective_open, hsp, days_at_time, nominal_open,
          List.getElem?_map, hd]
      · rw [overwrite_touched _ _ _ _ hnd hlo ho i days[i] hd v hsp]
        simp [effective_open, hsp]
    · rcases hsp : specialAt sc days[i] with _ | v
      · have hnot : days[i] ∉ sc.map normalize := by
          intro hmem
          rcases List.mem_map.mp hmem with ⟨s, hs, hns⟩
          have hmem2 : s ∈ sc.filter fun s => normalize s = days[i] :=
            List.mem_filter.mpr ⟨hs, by simpa using hns⟩
          have hfil : (sc.filter fun s => normalize s = days[i]) = [] :=
            List.getLast?_eq_none_iff.mp hsp
          rw [hfil] at hmem2
          simp at hmem2
        rw [overwrite_untouched _ _ _ _ hlc hc i days[i] hd hnot]
        simp [effective_close, hsp, days_at_time, nominal_close,
          List.getElem?_map, hd]
      · rw [overwrite_touched _ _ _ _ hnd hlc hc i days[i] hd v hsp]
        simp [effective_close, hsp]

/-! ### C1 — session-table ordering invariant -/

/-- **C1** (as written, refuted): the claim asserts `market_open < market_close`
for every row *including* rows overwritten by special instants, for every
constructed table.  The construction never validates the special instants
against the opposite column: a special close at UTC midnight of a trading day
lands below that day's open, yet construction succeeds.  Concretely, with a
9:30–16:00 UTC exchange over the single business day 0 and the special close
instant 0, the published table has `market_open = [34200000000000]` and
`market_close = [0]`. -/
theorem C1_counterexample :
    ∃ sch : Schedule,
      mkSchedule ⟨34200000000000, 57600000000000, 0, 0, 0⟩ [0] [] [0] = .ok sch ∧
      ¬ (∀ (i : Nat) (o c : Int), sch.market_open[i]? = some o → sch.market_close[i]? = some c → o < c) := by
  refine ⟨⟨[0], [34200000000000], [0]⟩, rfl, ?_⟩
  intro h
  exact absurd (h 0 34200000000000 0 rfl rfl) (by decide)

/-- **C1** (amended): for every row of a successfully constructed session
table, `market_open < market_close` — *provided* the inputs are consistent:
for every business day the effective open (last aligned special open if any,
else the nominal open) is strictly below the effective close.  Rows with no
special instants reduce to the nominal ordering; the construction itself does
not check the proviso. -/
theorem C1_open_lt_close_of_consistent_specials (cfg : ExchangeConfig)
    (days so sc : List Int) (sch : Schedule)
    (hok : mkSchedule cfg days so sc = .ok sch) (hnd : days.Nodup)
    (hord : ∀ d ∈ days, effective_open cfg so d < effective_close cfg sc d) :
    sch.market_open.length = sch.market_close.length ∧
    ∀ (i : Nat) (o c : Int), sch.market_open[i]? = some o → sch.market_close[i]? = some c → o < c := by
  obtain ⟨-, hlo, hlc, hspec⟩ := mkSchedule_ok_spec cfg days so sc sch hok hnd
  refine ⟨hlo.trans hlc.symm, ?_⟩
  intro i o c hoi hci
  have hi : i < days.length := by
    rw [← hlo]
    exact (List.getElem?_eq_some.mp hoi).1
  obtain ⟨h1, h2⟩ := hspec i hi
  rw [h1] at hoi
  rw [h2] at hci
  obtain rfl := Option.some.inj hoi
  obtain rfl := Option.some.inj hci
  exact hord _ (List.getElem_mem hi)

/-- Witness for C1 (amended) at a 9:30–16:00 UTC exchange over business days
{0, day 1} with a 13:00 special close on day 0. -/
theorem C1_witness :
    (⟨[0, 86400000000000], [34200000000000, 120600000000000],
        [46800000000000, 144000000000000]⟩ : Schedule).market_open.length =
      (⟨[0, 86400000000000], [34200000000000, 120600000000000],
        [46800000000000, 144000000000000]⟩ : Schedule).market_close.length ∧
    ∀ (i : Nat) (o c : Int),
      (⟨[0, 86400000000000], [34200000000000, 120600000000000],
          [46800000000000, 144000000000000]⟩ : Schedule).market_open[i]? = some o →
      (⟨[0, 86400000000000], [34200000000000, 120600000000000],
          [46800000000000, 144000000000000]⟩ : Schedule).market_close[i]? = some c →
      o < c :=
  C1_open_lt_close_of_consistent_specials ⟨34200000000000, 57600000000000, 0, 0, 0⟩
    [0, 86400000000000] [] [46800000000000] _ rfl (by decide) (by decide)

/-! ### C9 — the overlay is frame-preserving -/

/-- **C9**: the special-date overlay modifies only matched rows.  Any row
whose business day is not the normalized date of a special open keeps its
nominal `days_at_time` open (same for closes), and with both special
sequences empty the published columns are exactly the nominal sequences. -/
theorem C9_overlay_frame (cfg : ExchangeConfig) (days so sc : List Int) (sch : Schedule)
    (hok : mkSchedule cfg days so sc = .ok sch) :
    (∀ (i : Nat) (d : Int), days[i]? = some d → d ∉ so.map normalize →
        sch.market_open[i]? = some (nominal_open cfg d)) ∧
    (∀ (i : Nat) (d : Int), days[i]? = some d → d ∉ sc.map normalize →
        sch.market_close[i]? = some (nominal_close cfg d)) ∧
    (so = [] → sc = [] →
      sch.market_open = days_at_time days cfg.open_time cfg.tzOffset cfg.open_offset ∧
      sch.market_close = days_at_time days cfg.close_time cfg.tzOffset cfg.close_offset) := by
  obtain ⟨opens', closes', ho, hc, rfl⟩ := mkSchedule_ok_elim cfg days so sc sch hok
  have hlo : days.length =
      (days_at_time days cfg.open_time cfg.tzOffset cfg.open_offset).length := by
    simp [days_at_time]
  have hlc : days.length =
      (days_at_time days cfg.close_time cfg.tzOffset cfg.close_offset).length := by
    simp [days_at_time]
  refine ⟨?_, ?_, ?_⟩
  · intro i d hd hnot
    show opens'[i]? = _
    rw [overwrite_untouched _ _ _ _ hlo ho i d hd hnot]
    simp [days_at_time, List.getElem?_map, hd, nominal_open, day_at_time]
  · intro i d hd hnot
    show closes'[i]? = _
    rw [overwrite_untouched _ _ _ _ hlc hc i d hd hnot]
    simp [days_at_time, List.getElem?_map, hd, nominal_close, day_at_time]
  · rintro rfl rfl
    have h1 := ho
    have h2 := hc
    rw [show _overwrite_special_dates days
        (days_at_time days cfg.open_time cfg.tzOffset cfg.open_offset) [] =
        Except.ok (days_at_time days cfg.open_time cfg.tzOffset cfg.open_offset) from rfl] at h1
    rw [show _overwrite_special_dates days
        (days_at_time days cfg.close_time cfg.tzOffset cfg.close_offset) [] =
        Except.ok (days_at_time days cfg.close_time cfg.tzOffset cfg.close_offset) from rfl] at h2
    exact ⟨(Except.ok.inj h1).symm, (Except.ok.inj h2).symm⟩

/-- Witness for C9 with empty special sequences over the single business day 0:
the published columns are exactly the nominal `days_at_time` sequences. -/
theorem C9_witness :
    (∀ (i : Nat) (d : Int), ([(0:Int)])[i]? = some d → d ∉ ([] : List Int).map normalize →
        (⟨[0], [34200000000000], [57600000000000]⟩ : Schedule).market_open[i]? =
          some (nominal_open ⟨34200000000000, 57600000000000, 0, 0, 0⟩ d)) ∧
    (∀ (i : Nat) (d : Int), ([(0:Int)])[i]? = some d → d ∉ ([] : List Int).map normalize →
        (⟨[0], [34200000000000], [57600000000000]⟩ : Schedule).market_close[i]? =
          some (nominal_close ⟨34200000000000, 57600000000000, 0, 0, 0⟩ d)) ∧
    (([] : List Int) = [] → ([] : List Int) = [] →
      (⟨[0], [34200000000000], [57600000000000]⟩ : Schedule).market_open =
        days_at_time [0] 34200000000000 0 0 ∧
      (⟨[0], [34200000000000], [57600000000000]⟩ : Schedule).market_close =
        days_at_time [0] 57600000000000 0 0) :=
  C9_overlay_frame ⟨34200000000000, 57600000000000, 0, 0, 0⟩ [0] [] [] _ rfl

/-! ### C3 / C6 — construction-time failures -/

theorem zip_indexer_bad (midnights specials : List Int) :
    (((specials.zip (specials.map fun s => get_loc midnights (normalize s))).filter
        fun p => p.2 = none).map Prod.fst)
      = specials.filter fun s => get_loc midnights (normalize s) = none := by
  induction specials with
  | nil => rfl
  | cons a l ih =>
    by_cases ha : get_loc midnights (normalize a) = none
    · simp only [List.map_cons, List.zip_cons_cons, List.filter_cons]
      rw [if_pos (by simpa using ha), if_pos (by simpa using ha)]
      simp [ih]
    · simp only [List.map_cons, List.zip_cons_cons, List.filter_cons]
      rw [if_neg (by simpa using ha), if_neg (by simpa using ha)]
      exact ih

theorem overwrite_error_of_unaligned (midnights vals specials : List Int)
    (hlen : midnights.length = vals.length)
    (h : ∃ s ∈ specials, normalize s ∉ midnights) :
    _overwrite_special_dates midnights vals specials =
      .error (.specialDatesNotTradingDays
        (specials.filter fun s => normalize s ∉ midnights)) ∧
    (specials.filter fun s => normalize s ∉ midnights) ≠ [] := by
  obtain ⟨s, hs, hnotin⟩ := h
  have hne : ¬ specials.length = 0 := by
    intro h0
    rw [List.length_eq_zero] at h0
    subst h0
    simp at hs
  have hmem : none ∈ specials.map fun s => get_loc midnights (normalize s) :=
    List.mem_map.mpr ⟨s, hs, (get_loc_eq_none_iff _ _).mpr hnotin⟩
  have hq : (specials.filter fun s => get_loc midnights (normalize s) = none)
      = specials.filter fun s => normalize s ∉ midnights := by
    apply List.filter_congr
    intro t _
    exact decide_eq_decide.mpr (get_loc_eq_none_iff _ _)
  constructor
  · rw [_overwrite_special_dates, if_neg hne, if_neg (by simp [hlen]), if_pos hmem,
      zip_indexer_bad, hq]
  · exact List.ne_nil_of_mem
      (List.mem_filter.mpr ⟨hs, by simpa using hnotin⟩)

/-- **C3**: if any special-open or special-close instant's normalized date is
absent from the business-day sequence, construction fails with the
`special dates are not trading days` error whose payload is a non-empty list
of exactly such offending instants, and no session table is produced (the
result is an `error`, not a `Schedule`). -/
theorem C3_unaligned_special_dates_abort (cfg : ExchangeConfig) (days so sc : List Int)
    (h : (∃ s ∈ so, normalize s ∉ days) ∨ (∃ s ∈ sc, normalize s ∉ days)) :
    ∃ bad : List Int, bad ≠ [] ∧ (∀ b ∈ bad, normalize b ∉ days) ∧
      mkSchedule cfg days so sc = .error (.specialDatesNotTradingDays bad) := by
  by_cases hso : ∃ s ∈ so, normalize s ∉ days
  · obtain ⟨he, hne⟩ := overwrite_error_of_unaligned days
      (days_at_time days cfg.open_time cfg.tzOffset cfg.open_offset) so
      (by simp [days_at_time]) hso
    refine ⟨_, hne, ?_, ?_⟩
    · intro b hb
      simpa using (List.mem_filter.mp hb).2
    · unfold mkSchedule
      rw [he]
      rfl
  · have hsoal : ∀ s ∈ so, normalize s ∈ days := by
      intro s hs
      by_contra hn
      exact hso ⟨s, hs, hn⟩
    have hsc : ∃ s ∈ sc, normalize s ∉ days := h.resolve_left hso
    have heo := overwrite_eq_ok days
      (days_at_time days cfg.open_time cfg.tzOffset cfg.open_offset) so
      (by simp [days_at_time]) hsoal
    obtain ⟨he, hne⟩ := overwrite_error_of_unaligned days
      (days_at_time days cfg.close_time cfg.tzOffset cfg.close_offset) sc
      (by simp [days_at_time]) hsc
    refine ⟨_, hne, ?_, ?_⟩
    · intro b hb
      simpa using (List.mem_filter.mp hb).2
    · unfold mkSchedule
      rw [heo, he]
      rfl

/-- Witness for C3: a special close falling on calendar day 1 while the only
business day is day 0 aborts construction, naming that instant. -/
theorem C3_witness :
    ((∃ s ∈ ([] : List Int), normalize s ∉ [(0:Int)]) ∨
      (∃ s ∈ [(90000000000000:Int)], normalize s ∉ [(0:Int)])) ∧
    ∃ bad : List Int, bad ≠ [] ∧ (∀ b ∈ bad, normalize b ∉ [(0:Int)]) ∧
      mkSchedule ⟨34200000000000, 57600000000000, 0, 0, 0⟩ [0] [] [90000000000000] =
        .error (.specialDatesNotTradingDays bad) :=
  ⟨Or.inr ⟨90000000000000, by decide, by decide⟩,
    C3_unaligned_special_dates_abort ⟨34200000000000, 57600000000000, 0, 0, 0⟩
      [0] [] [90000000000000] (Or.inr ⟨90000000000000, by decide, by decide⟩)⟩

/-- **C6**: with a non-empty special-instant sequence, misaligned lengths of
the business-day sequence and the open/close sequence abort the overlay with
the misaligned-dates error (the defensive internal consistency check). -/
theorem C6_misaligned_lengths_abort (midnights vals specials : List Int)
    (hne : specials ≠ []) (hlen : midnights.length ≠ vals.length) :
    _overwrite_special_dates midnights vals specials =
      .error (.misalignedLengths midnights.length vals.length) := by
  rw [_overwrite_special_dates, if_neg (by simp [List.length_eq_zero, hne]), if_pos hlen]

/-- Witness for C6 at one midnight, an empty open/close sequence and one
special instant. -/
theorem C6_witness :
    ([(0:Int)] ≠ []) ∧ ([(0:Int)].length ≠ ([] : List Int).length) ∧
    _overwrite_special_dates [0] [] [0] = .error (.misalignedLengths 1 0) :=
  ⟨by decide, by decide, C6_misaligned_lengths_abort [0] [] [0] (by decide) (by decide)⟩

/-! ### C2 — minute-grid expansion (`all_trading_minutes`) -/

theorem arangeAux_length (n : Nat) (s st : Int) : (arangeAux n s st).length = n := by
  induction n generalizing s with
  | zero => rfl
  | succ n ih => simp [arangeAux, ih]

theorem arangeAux_head? (n : Nat) (s st : Int) :
    (arangeAux (n + 1) s st).head? = some s := rfl

theorem arangeAux_getLast? (n : Nat) (s st : Int) :
    (arangeAux (n + 1) s st).getLast? = some (s + n * st) := by
  induction n generalizing s with
  | zero => simp [arangeAux]
  | succ n ih =>
    show (s :: arangeAux (n + 1) (s + st) st).getLast? = _
    rw [show arangeAux (n + 1) (s + st) st = (s + st) :: arangeAux n (s + st + st) st from rfl,
      List.getLast?_cons_cons,
      show (s + st) :: arangeAux n (s + st + st) st = arangeAux (n + 1) (s + st) st from rfl,
      ih]
    congr 1
    push_cast
    ring

theorem arangeAux_chain' (n : Nat) (s st : Int) :
    List.Chain' (fun a b => b = a + st) (arangeAux n s st) := by
  induction n generalizing s with
  | zero => exact List.chain'_nil
  | succ n ih =>
    cases n with
    | zero => simp [arangeAux]
    | succ m =>
      rw [show arangeAux (m + 1 + 1) s st
          = s :: (s + st) :: arangeAux m (s + st + st) st from rfl]
      exact List.chain'_cons.mpr ⟨rfl, ih (s + st)⟩

/-- When the session delta is a whole number of minutes, the `np.arange`
block has exactly `delta / minute + 1` elements. -/
theorem arange_len_exact (o c : Int) (hoc : o ≤ c)
    (hdvd : (c - o) % NANOS_IN_MINUTE = 0) :
    arange_len o (c + NANOS_IN_MINUTE) NANOS_IN_MINUTE
      = ((c - o) / NANOS_IN_MINUTE).toNat + 1 := by
  obtain ⟨k, hk⟩ := Int.dvd_of_emod_eq_zero hdvd
  have hM : (0:Int) < NANOS_IN_MINUTE := by decide
  have hk0 : 0 ≤ k := by
    have h1 : (0:Int) ≤ NANOS_IN_MINUTE * k := hk ▸ sub_nonneg.mpr hoc
    nlinarith
  have harg : c + NANOS_IN_MINUTE - o + NANOS_IN_MINUTE - 1
      = (2 * NANOS_IN_MINUTE - 1) + NANOS_IN_MINUTE * k := by
    have : c = o + NANOS_IN_MINUTE * k := by omega
    rw [this]
    ring
  rw [arange_len, harg, Int.add_mul_ediv_left _ _ (by decide),
    show (2 * NANOS_IN_MINUTE - 1) / NANOS_IN_MINUTE = 1 by decide,
    hk, Int.mul_ediv_cancel_left _ (by decide)]
  omega

theorem map_toNat_sum {α : Type} (f : α → Int) (l : List α) (h : ∀ x ∈ l, 0 ≤ f x) :
    (l.map fun a => (f a).toNat).sum = (l.map f).sum.toNat := by
  induction l with
  | nil => rfl
  | cons a t ih =>
    have ha : 0 ≤ f a := h a (List.mem_cons_self a t)
    have ht : 0 ≤ (t.map f).sum := List.sum_nonneg fun x hx => by
      rcases List.mem_map.mp hx with ⟨y, hy, rfl⟩
      exact h y (List.mem_cons_of_mem a hy)
    rw [List.map_cons, List.sum_cons, List.map_cons, List.sum_cons,
      ih fun x hx => h x (List.mem_cons_of_mem a hx)]
    omega

/-- **C2**: `all_trading_minutes` is the concatenation, in session order, of
each session's minute block; when each session delta is nonnegative and a
whole number of minutes, each block has `(close - open)/1min + 1` elements,
starts at the open, ends at the close, steps by exactly one minute (strictly
increasing, no gaps within a session), and the total length is the sum of the
`daily_sizes`. -/
theorem C2_all_trading_minutes_spec (opens closes : List Int)
    (h : ∀ p ∈ opens.zip closes, p.1 ≤ p.2 ∧ (p.2 - p.1) % NANOS_IN_MINUTE = 0) :
    (all_trading_minutes opens closes =
      (opens.zip closes).flatMap fun p =>
        arange p.1 (p.2 + NANOS_IN_MINUTE) NANOS_IN_MINUTE) ∧
    (∀ p ∈ opens.zip closes,
      (arange p.1 (p.2 + NANOS_IN_MINUTE) NANOS_IN_MINUTE).length
          = ((p.2 - p.1) / NANOS_IN_MINUTE).toNat + 1 ∧
      (arange p.1 (p.2 + NANOS_IN_MINUTE) NANOS_IN_MINUTE).head? = some p.1 ∧
      (arange p.1 (p.2 + NANOS_IN_MINUTE) NANOS_IN_MINUTE).getLast? = some p.2 ∧
      List.Chain' (fun a b => b = a + NANOS_IN_MINUTE)
        (arange p.1 (p.2 + NANOS_IN_MINUTE) NANOS_IN_MINUTE)) ∧
    (all_trading_minutes opens closes).length = ((daily_sizes opens closes).sum).toNat := by
  have hblock : ∀ p ∈ opens.zip closes,
      arange p.1 (p.2 + NANOS_IN_MINUTE) NANOS_IN_MINUTE
        = arangeAux (((p.2 - p.1) / NANOS_IN_MINUTE).toNat + 1) p.1 NANOS_IN_MINUTE := by
    intro p hp
    rw [arange, arange_len_exact p.1 p.2 (h p hp).1 (h p hp).2]
  refine ⟨rfl, ?_, ?_⟩
  · intro p hp
    obtain ⟨hoc, hdvd⟩ := h p hp
    obtain ⟨k, hk⟩ := Int.dvd_of_emod_eq_zero hdvd
    have hM : (0:Int) < NANOS_IN_MINUTE := by decide
    have hk0 : 0 ≤ k := by
      have h1 : (0:Int) ≤ NANOS_IN_MINUTE * k := hk ▸ sub_nonneg.mpr hoc
      nlinarith
    have hkval : ((p.2 - p.1) / NANOS_IN_MINUTE).toNat = k.toNat := by
      rw [hk, Int.mul_ediv_cancel_left _ (by decide)]
    rw [hblock p hp]
    refine ⟨by rw [arangeAux_length], arangeAux_head? _ _ _, ?_, arangeAux_chain' _ _ _⟩
    rw [arangeAux_getLast?, hkval]
    congr 1
    have : (k.toNat : Int) = k := Int.toNat_of_nonneg hk0
    have hc : p.2 = p.1 + NANOS_IN_MINUTE * k := by omega
    rw [hc, this]
    ring
  · rw [all_trading_minutes, List.length_flatMap]
    have hmap : List.map
        (List.length ∘ fun p : Int × Int => arange p.1 (p.2 + NANOS_IN_MINUTE) NANOS_IN_MINUTE)
        (opens.zip closes)
        = List.map (fun p : Int × Int => ((p.2 - p.1) / NANOS_IN_MINUTE + 1).toNat)
            (opens.zip closes) := by
      apply List.map_congr_left
      intro p hp
      obtain ⟨hoc, hdvd⟩ := h p hp
      have hnn : 0 ≤ (p.2 - p.1) / NANOS_IN_MINUTE :=
        Int.ediv_nonneg (sub_nonneg.mpr hoc) (by decide)
      simp only [Function.comp_apply]
      rw [hblock p hp, arangeAux_length]
      omega
    rw [hmap, daily_sizes]
    apply map_toNat_sum (fun p : Int × Int => (p.2 - p.1) / NANOS_IN_MINUTE + 1)
    intro p hp
    have hnn : 0 ≤ (p.2 - p.1) / NANOS_IN_MINUTE :=
      Int.ediv_nonneg (sub_nonneg.mpr (h p hp).1) (by decide)
    omega

/-- Witness for C2 at a single two-minute session `[0, 120000000000]`. -/
theorem C2_witness :
    (all_trading_minutes [0] [120000000000] =
      ([(0:Int)].zip [(120000000000:Int)]).flatMap fun p =>
        arange p.1 (p.2 + NANOS_IN_MINUTE) NANOS_IN_MINUTE) ∧
    (∀ p ∈ [(0:Int)].zip [(120000000000:Int)],
      (arange p.1 (p.2 + NANOS_IN_MINUTE) NANOS_IN_MINUTE).length
          = ((p.2 - p.1) / NANOS_IN_MINUTE).toNat + 1 ∧
      (arange p.1 (p.2 + NANOS_IN_MINUTE) NANOS_IN_MINUTE).head? = some p.1 ∧
      (arange p.1 (p.2 + NANOS_IN_MINUTE) NANOS_IN_MINUTE).getLast? = some p.2 ∧
      List.Chain' (fun a b => b = a + NANOS_IN_MINUTE)
        (arange p.1 (p.2 + NANOS_IN_MINUTE) NANOS_IN_MINUTE)) ∧
    (all_trading_minutes [0] [120000000000]).length
      = ((daily_sizes [0] [120000000000]).sum).toNat :=
  C2_all_trading_minutes_spec [0] [120000000000] (by decide)

/-! ### C4 — the special-date resolver (`_special_dates`) -/

theorem mem_insertSorted (x : Int) (l : List Int) (b : Int) :
    b ∈ insertSorted x l ↔ b = x ∨ b ∈ l := by
  induction l with
  | nil => simp [insertSorted]
  | cons y ys ih =>
    by_cases h1 : x < y
    · simp [insertSorted, h1]
    · by_cases h2 : x = y
      · subst h2
        simp [insertSorted, h1]
      · simp [insertSorted, h1, h2, ih]
        tauto

theorem insertSorted_sorted (x : Int) (l : List Int) (h : l.Sorted (· < ·)) :
    (insertSorted x l).Sorted (· < ·) := by
  induction l with
  | nil => simp [insertSorted]
  | cons y ys ih =>
    rcases List.sorted_cons.mp h with ⟨hy, hys⟩
    by_cases h1 : x < y
    · rw [insertSorted, if_pos h1]
      exact List.sorted_cons.mpr ⟨fun b hb => by
        rcases List.mem_cons.mp hb with rfl | hb
        · exact h1
        · exact h1.trans (hy b hb), h⟩
    · by_cases h2 : x = y
      · rw [insertSorted, if_neg h1, if_pos h2]
        exact h
      · rw [insertSorted, if_neg h1, if_neg h2]
        have hyx : y < x := by omega
        exact List.sorted_cons.mpr ⟨fun b hb => by
          rcases (mem_insertSorted x ys b).mp hb with rfl | hb
          · exact hyx
          · exact hy b hb, ih hys⟩

theorem foldl_insertSorted_sorted (l : List Int) (acc : List Int)
    (h : acc.Sorted (· < ·)) :
    (l.foldl (fun a x => insertSorted x a) acc).Sorted (· < ·) := by
  induction l generalizing acc with
  | nil => exact h
  | cons x xs ih => exact ih _ (insertSorted_sorted x acc h)

theorem union_many_sorted (ls : List (List Int)) : (union_many ls).Sorted (· < ·) := by
  rw [union_many]
  suffices hgen : ∀ acc : List Int, acc.Sorted (· < ·) →
      (ls.foldl (fun acc l => l.foldl (fun a x => insertSorted x a) acc) acc).Sorted
        (· < ·) from
    hgen [] (List.sorted_nil)
  induction ls with
  | nil => exact fun acc h => h
  | cons l rest ih => exact fun acc h => ih _ (foldl_insertSorted_sorted l acc h)

/-- **C4**: the special-date resolver returns a sequence of instants that is
strictly increasing (hence sorted with no duplicates) and contains only
instants `t` with `start_date ≤ t ≤ end_date`. -/
theorem C4_special_dates_sorted_dedup_range (calendars ad_hoc_dates : List (Int × List Int))
    (start_date end_date tzOffset : Int) :
    (_special_dates calendars ad_hoc_dates start_date end_date tzOffset).Sorted (· < ·) ∧
    (_special_dates calendars ad_hoc_dates start_date end_date tzOffset).Nodup ∧
    ∀ t ∈ _special_dates calendars ad_hoc_dates start_date end_date tzOffset,
      start_date ≤ t ∧ t ≤ end_date := by
  have hs : (_special_dates calendars ad_hoc_dates start_date end_date tzOffset).Sorted
      (· < ·) :=
    List.Pairwise.filter _ (union_many_sorted _)
  refine ⟨hs, hs.imp fun hab => ne_of_lt hab, ?_⟩
  intro t ht
  simpa using (List.mem_filter.mp ht).2

/-! ### C5 — next/previous trading-day round trip

The navigation helpers (`next_scheduled_day`, `previous_scheduled_day`) live
in `zipline/utils/calendars/calendar_helpers.py`, which is not part of the
sources; the definitions below are modelled from the spec. -/

theorem largestBefore_none (l : List Int) (d : Int) :
    l.Sorted (· < ·) → largestBefore l d = none → ∀ z ∈ l, d ≤ z := by
  cases l with
  | nil => intro _ _ z hz; simp at hz
  | cons x xs =>
    intro hsorted h z hz
    rw [largestBefore] at h
    by_cases hx : x < d
    · rw [if_pos hx] at h
      exact Option.noConfusion h
    · rcases List.mem_cons.mp hz with rfl | hz
      · omega
      · have := (List.sorted_cons.mp hsorted).1 z hz
        omega

theorem largestBefore_some (l : List Int) (d : Int) :
    l.Sorted (· < ·) → ∀ p, largestBefore l d = some p →
      p ∈ l ∧ p < d ∧ ∀ z ∈ l, z < d → z ≤ p := by
  induction l with
  | nil => intro _ p h; exact Option.noConfusion h
  | cons x xs ih =>
    intro hsorted p h
    rcases List.sorted_cons.mp hsorted with ⟨hx, hxs⟩
    rw [largestBefore] at h
    by_cases hxd : x < d
    · rw [if_pos hxd] at h
      have hp := Option.some.inj h
      rcases hlb : largestBefore xs d with _ | q
      · rw [hlb] at hp
        simp at hp
        subst hp
        refine ⟨List.mem_cons_self _ _, hxd, ?_⟩
        intro z hz hzd
        rcases List.mem_cons.mp hz with rfl | hz
        · exact le_refl _
        · exact absurd hzd (not_lt.mpr (largestBefore_none xs d hxs hlb z hz))
      · rw [hlb] at hp
        simp at hp
        subst hp
        obtain ⟨hq1, hq2, hq3⟩ := ih hxs q hlb
        refine ⟨List.mem_cons_of_mem _ hq1, hq2, ?_⟩
        intro z hz hzd
        rcases List.mem_cons.mp hz with rfl | hz
        · exact le_of_lt (hx q hq1)
        · exact hq3 z hz hzd
    · rw [if_neg hxd] at h
      exact Option.noConfusion h

theorem smallestAfter_spec (l : List Int) (p t : Int) :
    l.Sorted (· < ·) → t ∈ l → p < t → (∀ z ∈ l, z < t → z ≤ p) →
      smallestAfter l p = some t := by
  induction l with
  | nil => intro _ ht; simp at ht
  | cons x xs ih =>
    intro hsorted ht hpt hbound
    rcases List.sorted_cons.mp hsorted with ⟨hx, hxs⟩
    rw [smallestAfter]
    by_cases hpx : p < x
    · rw [if_pos hpx]
      congr 1
      rcases List.mem_cons.mp ht with rfl | htxs
      · rfl
      · have hxt : x < t := hx t htxs
        have hxp : x ≤ p := hbound x (List.mem_cons_self _ _) hxt
        omega
    · rw [if_neg hpx]
      rcases List.mem_cons.mp ht with rfl | htxs
      · omega
      · exact ih hxs htxs hpt fun z hz => hbound z (List.mem_cons_of_mem _ hz)

/-- **C5** (as written, refuted): the claim quantifies over every *calendar*
day strictly between the first and last trading day.  For a calendar day in a
gap of the business-day sequence the round trip lands on the next business
day after the gap, not on `d`: with business days {day 0, day 2, day 4},
`previous_trading_day(day 1) = day 0` and `next_trading_day(day 0) = day 2 ≠
day 1`. -/
theorem C5_counterexample :
    (0:Int) < 86400000000000 ∧ (86400000000000:Int) < 345600000000000 ∧
    previous_trading_day [0, 172800000000000, 345600000000000] 0 86400000000000
      = some 0 ∧
    next_trading_day [0, 172800000000000, 345600000000000] 345600000000000 0
      = some 172800000000000 ∧
    (172800000000000:Int) ≠ 86400000000000 := by decide

/-- **C5** (amended): for every *business* day `d` strictly between a
business day `f` (in particular the first trading day) and the last trading
day `l`, `next_trading_day (previous_trading_day d) = d`. -/
theorem C5_roundtrip_on_business_days (days : List Int) (f l d : Int)
    (hsorted : days.Sorted (· < ·)) (hf : f ∈ days) (hd : d ∈ days)
    (h1 : f < d) (h2 : d < l) :
    ∃ p, previous_trading_day days f d = some p ∧
      next_trading_day days l p = some d := by
  rcases hlb : largestBefore days d with _ | p
  · exact absurd (largestBefore_none days d hsorted hlb f hf) (by omega)
  · obtain ⟨hp1, hp2, hp3⟩ := largestBefore_some days d hsorted p hlb
    refine ⟨p, ?_, ?_⟩
    · rw [previous_trading_day, if_neg (by omega), hlb]
    · rw [next_trading_day, if_neg (by omega)]
      exact smallestAfter_spec days p d hsorted hd hp2 hp3

/-- Witness for C5 (amended) with business days {day 0, day 2, day 4} and
`d` = day 2. -/
theorem C5_witness :
    ∃ p, previous_trading_day [0, 172800000000000, 345600000000000] 0 172800000000000
        = some p ∧
      next_trading_day [0, 172800000000000, 345600000000000] 345600000000000 p
        = some 172800000000000 :=
  C5_roundtrip_on_business_days [0, 172800000000000, 345600000000000]
    0 345600000000000 172800000000000
    (by decide) (by decide) (by decide) (by decide) (by decide)

/-! ### C7 / C8 / C10 — the calendar registry -/

theorem lookup_deregister (nm : String) (reg : CalendarRegistry) :
    (deregister_calendar nm reg).lookup nm = none := by
  induction reg with
  | nil => rfl
  | cons p t ih =>
    rw [deregister_calendar, List.filter_cons]
    by_cases hp : p.1 = nm
    · rw [if_neg (by simp [hp])]
      exact ih
    · rw [if_pos (by simp [hp])]
      have hb : (nm == p.1) = false := by simp [Ne.symm hp]
      simp only [List.lookup, hb]
      exact ih

theorem lookup_deregister_ne (nm n : String) (hne : n ≠ nm) (reg : CalendarRegistry) :
    (deregister_calendar nm reg).lookup n = reg.lookup n := by
  induction reg with
  | nil => rfl
  | cons p t ih =>
    rw [deregister_calendar, List.filter_cons]
    by_cases hp : p.1 = nm
    · rw [if_neg (by simp [hp])]
      have hb : (n == p.1) = false := by simp [hp, hne]
      rw [show (p :: t).lookup n = t.lookup n from by simp only [List.lookup, hb]]
      exact ih
    · rw [if_pos (by simp [hp])]
      simp only [List.lookup]
      by_cases hn : n = p.1
      · have hb : (n == p.1) = true := by simp [hn]
        simp only [hb]
      · have hb : (n == p.1) = false := by simp [hn]
        simp only [hb]
        exact ih

/-- **C7**: registering a name that is already present fails with the
name-collision error and leaves the registry unchanged; with `force` the
registration succeeds, the new instance replaces the old entry, and every
other name's binding is untouched. -/
theorem C7_register_collision_and_force (reg : CalendarRegistry)
    (cal old : ExchangeCalendar) (h : reg.lookup cal.name = some old) :
    register_calendar cal false reg = (reg, some (.calendarNameCollision cal.name)) ∧
    ∃ reg', register_calendar cal true reg = (reg', none) ∧
      reg'.lookup cal.name = some cal ∧
      ∀ n, n ≠ cal.name → reg'.lookup n = reg.lookup n := by
  constructor
  · simp [register_calendar, h]
  · refine ⟨(cal.name, cal) :: deregister_calendar cal.name reg, ?_, ?_, ?_⟩
    · simp [register_calendar, lookup_deregister]
    · simp [List.lookup]
    · intro n hn
      have hb : (n == cal.name) = false := by simp [hn]
      simp only [List.lookup, hb]
      exact lookup_deregister_ne cal.name n hn reg

/-- Witness for C7: a registry holding one NYSE instance; re-registering a
different NYSE instance collides without `force` and replaces it with
`force`. -/
theorem C7_witness :
    register_calendar ⟨"NYSE", some 1, none⟩ false
        [("NYSE", ⟨"NYSE", none, none⟩)]
      = ([("NYSE", ⟨"NYSE", none, none⟩)],
          some (.calendarNameCollision "NYSE")) ∧
    ∃ reg', register_calendar ⟨"NYSE", some 1, none⟩ true
        [("NYSE", ⟨"NYSE", none, none⟩)] = (reg', none) ∧
      reg'.lookup (ExchangeCalendar.mk "NYSE" (some 1) none).name
        = some ⟨"NYSE", some 1, none⟩ ∧
      ∀ n, n ≠ (ExchangeCalendar.mk "NYSE" (some 1) none).name →
        reg'.lookup n = [("NYSE", (ExchangeCalendar.mk "NYSE" none none))].lookup n :=
  C7_register_collision_and_force [("NYSE", ⟨"NYSE", none, none⟩)]
    ⟨"NYSE", some 1, none⟩ ⟨"NYSE", none, none⟩ rfl

/-- **C8**: `get_calendar` on a name that is neither registered nor a known
lazy constructor fails with the unknown-name error and leaves the registry
unchanged; on a known unregistered name, the first call constructs, registers
and returns an instance and a second call (with any arguments) returns that
identical cached instance with no further registry change. -/
theorem C8_get_calendar_unknown_and_cached (name : String) (s1 e1 s2 e2 : Option Int)
    (reg : CalendarRegistry) (hnone : reg.lookup name = none) :
    (name ∉ lazy_calendar_names →
      get_calendar name s1 e1 reg = (reg, .error (.invalidCalendarName name))) ∧
    (name ∈ lazy_calendar_names →
      ∃ reg1 cal, get_calendar name s1 e1 reg = (reg1, .ok cal) ∧
        get_calendar name s2 e2 reg1 = (reg1, .ok cal)) := by
  constructor
  · intro hnotin
    simp [get_calendar, hnone, hnotin]
  · intro hin
    have hreg : register_calendar (constructCalendar name s1 e1) false reg
        = ((name, constructCalendar name s1 e1) :: reg, none) := by
      simp [register_calendar, constructCalendar, hnone]
    refine ⟨(name, constructCalendar name s1 e1) :: reg,
      constructCalendar name s1 e1, ?_, ?_⟩
    · simp [get_calendar, hnone, hin, hreg, List.lookup]
    · simp [get_calendar, List.lookup]

/-- Witness for C8 starting from the empty registry with the known name
`"NYSE"` and the unknown branch vacuously instantiated. -/
theorem C8_witness :
    ("NYSE" ∉ lazy_calendar_names →
      get_calendar "NYSE" (some 10) (some 20) [] =
        ([], .error (.invalidCalendarName "NYSE"))) ∧
    ("NYSE" ∈ lazy_calendar_names →
      ∃ reg1 cal, get_calendar "NYSE" (some 10) (some 20) [] = (reg1, .ok cal) ∧
        get_calendar "NYSE" none none reg1 = (reg1, .ok cal)) :=
  C8_get_calendar_unknown_and_cached "NYSE" (some 10) (some 20) none none [] rfl

/-- **C10**: when a name is already registered, `get_calendar` returns the
cached instance and the unchanged registry whatever the `start`/`end`
arguments are — two calls with different arguments return the same
instance, and no reconstruction happens. -/
theorem C10_get_calendar_ignores_range_args (name : String) (s1 e1 s2 e2 : Option Int)
    (reg : CalendarRegistry) (cal : ExchangeCalendar)
    (h : reg.lookup name = some cal) :
    get_calendar name s1 e1 reg = (reg, .ok cal) ∧
    get_calendar name s2 e2 reg = (reg, .ok cal) := by
  constructor <;> simp [get_calendar, h]

/-- Witness for C10: a registered CME instance is returned for two different
`start`/`end` argument pairs. -/
theorem C10_witness :
    get_calendar "CME" (some 1) (some 2) [("CME", ⟨"CME", none, none⟩)]
      = ([("CME", ⟨"CME", none, none⟩)], .ok ⟨"CME", none, none⟩) ∧
    get_calendar "CME" none (some 99) [("CME", ⟨"CME", none, none⟩)]
      = ([("CME", ⟨"CME", none, none⟩)], .ok ⟨"CME", none, none⟩) :=
  C10_get_calendar_ignores_range_args "CME" (some 1) (some 2) none (some 99)
    [("CME", ⟨"CME", none, none⟩)] ⟨"CME", none, none⟩ rfl

end Zipline
